import Mathlib

/-
  Verification development for the federated-learning defense simulator
  (src/index.tsx).  The round engine `runRound` of the source is embedded
  below over exact rational arithmetic (the source computes with JS
  numbers; every formula the claims mention is exact decimal arithmetic,
  modelled here by ℚ).  The gradients handed to each client are produced
  in the source by `generateGradient`, which draws from the ambient
  `Math.random()`; the drawn gradient vectors therefore enter the model
  as an oracle argument `grads : ℕ → List ℚ` (one generated gradient per
  client index), and every theorem holds for all values of that oracle.
-/

namespace FedSim

/-- Dimension of the simulated parameter vectors (VECTOR_DIM in the source). -/
def VECTOR_DIM : ℕ := 20

/-- Number of simulated clients per round (NUM_CLIENTS in the source). -/
def NUM_CLIENTS : ℕ := 20

/-- Fraction of malicious clients (MALICIOUS_RATIO = 0.2 in the source). -/
def maliciousFraction : ℚ := 0.2

/-- Client type enumeration from the source. -/
inductive ClientType where
  | benign
  | malicious
  deriving DecidableEq, Inhabited

/-- The per-round client record from the source (interface Client). -/
structure Client where
  id : ℕ
  type : ClientType
  gradient : List ℚ
  dataDistribution : ℚ
  stiffnessViolationScore : ℚ
  isAccepted : Bool
  deriving DecidableEq, Inhabited

/-- One entry of the bounded metrics history. -/
structure HistoryEntry where
  round : ℕ
  acc : ℚ
  asr : ℚ
  deriving DecidableEq, Inhabited

/-- The engine state (interface SimulationState in the source). -/
structure SimulationState where
  round : ℕ
  globalAccuracy : ℚ
  backdoorSuccessRate : ℚ
  globalFIM : List ℚ
  clients : List Client
  history : List HistoryEntry
  deriving DecidableEq, Inhabited

/-- The defense toggles and environment knobs read by the engine. -/
structure Config where
  useMomentumFIM : Bool
  useStiffnessMask : Bool
  useLayerWeightedClustering : Bool
  nonIIDLevel : ℚ
  attackStealth : ℚ
  deriving DecidableEq

/-- Sum of squares of a vector; `mag` in the source is its square root. -/
def magSq (a : List ℚ) : ℚ := (a.map fun v => v * v).sum

/-- The magnitude function of the source: mag a = sqrt (Σ v²). -/
noncomputable def mag (a : List ℚ) : ℝ := Real.sqrt ((magSq a : ℚ) : ℝ)

/-- The ideal importance profile built each round when momentum-FIM is on:
10.0 on the five trigger coordinates, 1.0 elsewhere. -/
def idealFIM (i : ℕ) : ℚ := if i < 5 then 10.0 else 1.0

/-- The EMA map with index of the source, written as structural recursion:
currentFIM.map((f, i) => 0.9 * f + 0.1 * idealFIM[i]) starting at index k. -/
def emaUpdateFrom : ℕ → List ℚ → List ℚ
  | _, [] => []
  | k, f :: rest => (0.9 * f + 0.1 * idealFIM k) :: emaUpdateFrom (k + 1) rest

/-- The conditional FIM update of runRound: EMA when momentum is enabled,
otherwise the previous vector unchanged. -/
def updateFIM (useMomentum : Bool) (fim : List ℚ) : List ℚ :=
  if useMomentum then emaUpdateFrom 0 fim else fim

/-- The indexed reduce of Mechanism A, gradient.reduce((acc, val, idx) =>
acc + fim[idx] * abs val), written as structural recursion from index k. -/
def weightedAbsSum (fim : List ℚ) : ℕ → List ℚ → ℚ
  | _, [] => 0
  | k, v :: rest => fim.getD k 0 * |v| + weightedAbsSum fim (k + 1) rest

/-- The stiffness score variable of the source: computed (and divided by
VECTOR_DIM) only inside the useStiffnessMask branch, otherwise left 0. -/
def stiffnessScoreOf (cfg : Config) (fim grad : List ℚ) : ℚ :=
  if cfg.useStiffnessMask then weightedAbsSum fim 0 grad / VECTOR_DIM else 0

/-- The dynamic threshold of Mechanism A. -/
def stiffnessThreshold (cfg : Config) : ℚ :=
  (if cfg.useMomentumFIM then 12 else 15) * (1 + cfg.nonIIDLevel)

/-- Mechanism A's detection flag: set exactly when the mask is enabled and
the stiffness score exceeds the threshold. -/
def detectedByA (cfg : Config) (fim grad : List ℚ) : Bool :=
  cfg.useStiffnessMask && decide (stiffnessScoreOf cfg fim grad > stiffnessThreshold cfg)

/-- Mechanism B's weighted squared distance: the for-loop of the source,
including its inner weight choice between fim[i] and 1. -/
def clusterDist (cfg : Config) (fim dir grad : List ℚ) : ℚ :=
  ((List.range VECTOR_DIM).map fun i =>
    (if cfg.useLayerWeightedClustering then fim.getD i 0 else 1) *
      ((grad.getD i 0 - dir.getD i 0) * (grad.getD i 0 - dir.getD i 0))).sum

/-- Detection state after Mechanisms A and B: B only runs when its toggle
is on and A did not already detect, and can only set the flag to true. -/
def detectAB (cfg : Config) (fim dir grad : List ℚ) : Bool :=
  let det1 := detectedByA cfg fim grad
  if cfg.useLayerWeightedClustering && !det1 then
    decide (clusterDist cfg fim dir grad > 500 * (1 + cfg.nonIIDLevel))
  else det1

/-- Full detection including the fallback magnitude check, which is guarded
by both toggles being off.  The source compares mag grad > 25; since both
sides are nonnegative this is the decidable magSq grad > 25 * 25 (proved
as mag_gt_25_iff below). -/
def detect (cfg : Config) (fim dir grad : List ℚ) : Bool :=
  let det2 := detectAB cfg fim dir grad
  if !cfg.useStiffnessMask && !cfg.useLayerWeightedClustering then
    (if magSq grad > 25 * 25 then true else det2)
  else det2

/-- Per-client processing step of runRound: record the stiffness score and
the acceptance decision. -/
def processClient (cfg : Config) (fim dir : List ℚ) (c : Client) : Client :=
  { c with
    stiffnessViolationScore := stiffnessScoreOf cfg fim c.gradient
    isAccepted := !(detect cfg fim dir c.gradient) }

/-- The deterministic type assignment of the source generalized to its
parameters: client i is malicious iff i < n * frac. -/
def clientTypeOf (n : ℕ) (frac : ℚ) (i : ℕ) : ClientType :=
  if (i : ℚ) < (n : ℚ) * frac then ClientType.malicious else ClientType.benign

/-- Client construction of runRound step 1; the generated gradient is the
oracle value grads i (see the header comment). -/
def mkClient (grads : ℕ → List ℚ) (i : ℕ) : Client :=
  let type := clientTypeOf NUM_CLIENTS maliciousFraction i
  { id := i
    type := type
    gradient := grads i
    dataDistribution := if type = ClientType.malicious then 0.9 else (i : ℚ) / (NUM_CLIENTS : ℚ)
    stiffnessViolationScore := 0
    isAccepted := true }

/-- Count of accepted clients. -/
def acceptedCountOf (cs : List Client) : ℕ := cs.countP (fun c => c.isAccepted)

/-- Count of accepted malicious clients. -/
def maliciousAcceptedOf (cs : List Client) : ℕ :=
  cs.countP (fun c => c.isAccepted && decide (c.type = ClientType.malicious))

/-- attackImpact = maliciousAccepted / (acceptedCount || 1): the JS or
picks acceptedCount when it is nonzero, else 1. -/
def attackImpactOf (cs : List Client) : ℚ :=
  (maliciousAcceptedOf cs : ℚ) /
    (if acceptedCountOf cs = 0 then 1 else (acceptedCountOf cs : ℚ))

/-- JS slice(-n): keep the last n elements (all of them when fewer). -/
def sliceLast {α : Type} (n : ℕ) (l : List α) : List α := l.drop (l.length - n)

/-- The round transition of the source (runRound), as a pure function of
the config, the gradient oracle, the fixed true direction and the
previous state. -/
def runRound (cfg : Config) (grads : ℕ → List ℚ) (dir : List ℚ)
    (prev : SimulationState) : SimulationState :=
  let newRound := prev.round + 1
  let newClients := (List.range NUM_CLIENTS).map (mkClient grads)
  let currentFIM := updateFIM cfg.useMomentumFIM prev.globalFIM
  let processedClients := newClients.map (processClient cfg currentFIM dir)
  let attackImpact := attackImpactOf processedClients
  let targetAcc := 0.95 - attackImpact * 0.5
  let newAcc := prev.globalAccuracy * 0.8 + targetAcc * 0.2
  let targetASR : ℚ := if attackImpact > 0.1 then 0.9 else 0.0
  let newASR := prev.backdoorSuccessRate * 0.8 + targetASR * 0.2
  let newHistory :=
    sliceLast 50 (prev.history ++ [{ round := newRound, acc := newAcc, asr := newASR }])
  { round := newRound
    globalAccuracy := newAcc
    backdoorSuccessRate := newASR
    globalFIM := currentFIM
    clients := processedClients
    history := newHistory }

/-- The initial state of the simulation (round 0). -/
def initialState : SimulationState :=
  { round := 0
    globalAccuracy := 0.1
    backdoorSuccessRate := 0
    globalFIM := List.replicate VECTOR_DIM 1
    clients := []
    history := [] }

/-- States reachable from the initial state by round transitions under any
per-round configuration and any gradient draws, with the true direction
fixed for the whole run. -/
inductive Reachable (dir : List ℚ) : SimulationState → Prop where
  | init : Reachable dir initialState
  | step (cfg : Config) (grads : ℕ → List ℚ) (s : SimulationState) :
      Reachable dir s → Reachable dir (runRound cfg grads dir s)

/- Helper lemmas -/

/-- A mapped List.range sum is the corresponding Finset.range sum. -/
theorem sum_map_range_eq (f : ℕ → ℚ) : ∀ n : ℕ,
    ((List.range n).map f).sum = ∑ j ∈ Finset.range n, f j
  | 0 => by simp
  | n + 1 => by
      rw [List.range_succ, List.map_append, List.sum_append, Finset.sum_range_succ,
        sum_map_range_eq f n]
      simp

/-- The indexed reduce of Mechanism A as an indexed sum over the gradient
positions. -/
theorem weightedAbsSum_eq (fim : List ℚ) : ∀ (g : List ℚ) (k : ℕ),
    weightedAbsSum fim k g = ∑ j ∈ Finset.range g.length, fim.getD (k + j) 0 * |g.getD j 0|
  | [], k => by simp [weightedAbsSum]
  | v :: rest, k => by
      rw [weightedAbsSum, weightedAbsSum_eq fim rest (k + 1), List.length_cons,
        Finset.sum_range_succ']
      have h1 : ∀ j, fim.getD (k + 1 + j) 0 * |rest.getD j 0|
          = fim.getD (k + (j + 1)) 0 * |(v :: rest).getD (j + 1) 0| := by
        intro j
        have harg : k + 1 + j = k + (j + 1) := by omega
        rw [List.getD_cons_succ, harg]
      rw [Finset.sum_congr rfl (fun j _ => h1 j)]
      simp only [List.getD_cons_zero, Nat.add_zero]
      ring

theorem length_emaUpdateFrom : ∀ (k : ℕ) (l : List ℚ),
    (emaUpdateFrom k l).length = l.length
  | _, [] => rfl
  | k, _ :: rest => by simp [emaUpdateFrom, length_emaUpdateFrom (k + 1) rest]

/-- Coordinatewise description of the EMA update. -/
theorem getD_emaUpdateFrom : ∀ (k : ℕ) (l : List ℚ) (j : ℕ), j < l.length →
    (emaUpdateFrom k l).getD j 0 = 0.9 * l.getD j 0 + 0.1 * idealFIM (k + j)
  | k, f :: rest, 0, _ => by simp [emaUpdateFrom]
  | k, f :: rest, j + 1, h => by
      have hr : j < rest.length := by simpa using h
      have harg : k + 1 + j = k + (j + 1) := by omega
      show (emaUpdateFrom (k + 1) rest).getD j 0 = _
      rw [getD_emaUpdateFrom (k + 1) rest j hr, harg, List.getD_cons_succ]

/-- The ideal importance profile stays inside [0, 10]. -/
theorem idealFIM_bounds (i : ℕ) : 0 ≤ idealFIM i ∧ idealFIM i ≤ 10 := by
  unfold idealFIM
  split <;> norm_num

/-- The EMA update keeps every coordinate inside [0, 10]. -/
theorem mem_emaUpdateFrom_bounds : ∀ (k : ℕ) (l : List ℚ),
    (∀ x ∈ l, 0 ≤ x ∧ x ≤ 10) → ∀ y ∈ emaUpdateFrom k l, 0 ≤ y ∧ y ≤ 10
  | k, [], _, y, hy => by simp [emaUpdateFrom] at hy
  | k, f :: rest, h, y, hy => by
      rcases List.mem_cons.mp hy with hy | hy
      · subst hy
        obtain ⟨h0, h10⟩ := h f (List.mem_cons_self f rest)
        obtain ⟨i0, i10⟩ := idealFIM_bounds k
        constructor <;> nlinarith
      · exact mem_emaUpdateFrom_bounds (k + 1) rest
          (fun x hx => h x (List.mem_cons_of_mem f hx)) y hy

theorem magSq_nonneg (a : List ℚ) : 0 ≤ magSq a := by
  unfold magSq
  induction a with
  | nil => simp
  | cons v rest ih => simpa using add_nonneg (mul_self_nonneg v) ih

/-- The fallback comparison of the source, mag grad > 25, is equivalent to
the decidable squared comparison used in detect. -/
theorem mag_gt_25_iff (a : List ℚ) : mag a > 25 ↔ magSq a > 25 * 25 := by
  unfold mag
  rw [gt_iff_lt, show (25 : ℝ) = ((25 : ℚ) : ℝ) by norm_num,
    Real.lt_sqrt (by positivity)]
  constructor
  · intro h
    have : ((25 * 25 : ℚ) : ℝ) < ((magSq a : ℚ) : ℝ) := by push_cast; push_cast at h; linarith
    exact_mod_cast this
  · intro h
    have : ((25 * 25 : ℚ) : ℝ) < ((magSq a : ℚ) : ℝ) := by exact_mod_cast h
    push_cast at this ⊢
    linarith

/- Projection lemmas for runRound -/

theorem runRound_round (cfg : Config) (grads : ℕ → List ℚ) (dir : List ℚ)
    (prev : SimulationState) : (runRound cfg grads dir prev).round = prev.round + 1 := rfl

theorem runRound_globalFIM (cfg : Config) (grads : ℕ → List ℚ) (dir : List ℚ)
    (prev : SimulationState) :
    (runRound cfg grads dir prev).globalFIM = updateFIM cfg.useMomentumFIM prev.globalFIM := rfl

theorem runRound_clients (cfg : Config) (grads : ℕ → List ℚ) (dir : List ℚ)
    (prev : SimulationState) :
    (runRound cfg grads dir prev).clients =
      ((List.range NUM_CLIENTS).map (mkClient grads)).map
        (processClient cfg (updateFIM cfg.useMomentumFIM prev.globalFIM) dir) := rfl

theorem runRound_globalAccuracy (cfg : Config) (grads : ℕ → List ℚ) (dir : List ℚ)
    (prev : SimulationState) :
    (runRound cfg grads dir prev).globalAccuracy =
      prev.globalAccuracy * 0.8 +
        (0.95 - attackImpactOf (runRound cfg grads dir prev).clients * 0.5) * 0.2 := rfl

theorem runRound_backdoorSuccessRate (cfg : Config) (grads : ℕ → List ℚ) (dir : List ℚ)
    (prev : SimulationState) :
    (runRound cfg grads dir prev).backdoorSuccessRate =
      prev.backdoorSuccessRate * 0.8 +
        (if attackImpactOf (runRound cfg grads dir prev).clients > 0.1
          then (0.9 : ℚ) else 0.0) * 0.2 := rfl

theorem runRound_history (cfg : Config) (grads : ℕ → List ℚ) (dir : List ℚ)
    (prev : SimulationState) :
    (runRound cfg grads dir prev).history =
      sliceLast 50 (prev.history ++
        [{ round := prev.round + 1,
           acc := (runRound cfg grads dir prev).globalAccuracy,
           asr := (runRound cfg grads dir prev).backdoorSuccessRate }]) := rfl

/-- The processed client at position i of the new round. -/
theorem runRound_clients_getD (cfg : Config) (grads : ℕ → List ℚ) (dir : List ℚ)
    (prev : SimulationState) (i : ℕ) (hi : i < NUM_CLIENTS) :
    (runRound cfg grads dir prev).clients.getD i default =
      processClient cfg (updateFIM cfg.useMomentumFIM prev.globalFIM) dir (mkClient grads i) := by
  rw [runRound_clients, List.map_map]
  have hlen : i < (((List.range NUM_CLIENTS).map
      ((processClient cfg (updateFIM cfg.useMomentumFIM prev.globalFIM) dir) ∘ mkClient grads))).length := by
    simpa using hi
  rw [List.getD_eq_getElem _ _ hlen, List.getElem_map]
  simp

theorem processClient_isAccepted (cfg : Config) (fim dir : List ℚ) (c : Client) :
    (processClient cfg fim dir c).isAccepted = !(detect cfg fim dir c.gradient) := rfl

theorem processClient_score (cfg : Config) (fim dir : List ℚ) (c : Client) :
    (processClient cfg fim dir c).stiffnessViolationScore =
      stiffnessScoreOf cfg fim c.gradient := rfl

theorem mkClient_gradient (grads : ℕ → List ℚ) (i : ℕ) : (mkClient grads i).gradient = grads i := rfl

theorem mkClient_type (grads : ℕ → List ℚ) (i : ℕ) :
    (mkClient grads i).type = clientTypeOf NUM_CLIENTS maliciousFraction i := rfl

/-- B never clears a detection made by A. -/
theorem detectAB_of_detectedByA (cfg : Config) (fim dir grad : List ℚ)
    (h : detectedByA cfg fim grad = true) : detectAB cfg fim dir grad = true := by
  simp [detectAB, h]

/-- When the clustering toggle is on the fallback stage is skipped. -/
theorem detect_eq_detectAB_of_lwc (cfg : Config) (fim dir grad : List ℚ)
    (hlwc : cfg.useLayerWeightedClustering = true) :
    detect cfg fim dir grad = detectAB cfg fim dir grad := by
  simp [detect, hlwc]

/-- When the stiffness toggle is on the fallback stage is skipped. -/
theorem detect_eq_detectAB_of_mask (cfg : Config) (fim dir grad : List ℚ)
    (hmask : cfg.useStiffnessMask = true) :
    detect cfg fim dir grad = detectAB cfg fim dir grad := by
  simp [detect, hmask]

/- Concrete fixtures used by the witnesses. -/

/-- Fixture: every toggle enabled, the default environment knobs. -/
def cfgAll : Config :=
  { useMomentumFIM := true
    useStiffnessMask := true
    useLayerWeightedClustering := true
    nonIIDLevel := 0.5
    attackStealth := 0.6 }

/-- Fixture: both detection mechanisms disabled. -/
def cfgPlain : Config :=
  { useMomentumFIM := true
    useStiffnessMask := false
    useLayerWeightedClustering := false
    nonIIDLevel := 0.5
    attackStealth := 0.6 }

/-- Fixture gradient oracle: the all-zero gradient for every client. -/
def gradsZero : ℕ → List ℚ := fun _ => List.replicate VECTOR_DIM 0

/-- Fixture gradient oracle: every coordinate equal to 10. -/
def gradsTen : ℕ → List ℚ := fun _ => List.replicate VECTOR_DIM 10

/-- Fixture true direction: the zero vector. -/
def dirZero : List ℚ := List.replicate VECTOR_DIM 0

/- Claim theorems -/

/-- C1: with the stiffness mask enabled, the processed client records
stiffnessScore = (Σ_j importance[j] * abs gradient[j]) / D computed from
the round's finalized importance vector; Mechanism A detects exactly when
that score exceeds 12 * (1 + nonIIDLevel) when momentum-FIM is enabled,
else 15 * (1 + nonIIDLevel); and a Mechanism-A detection makes the client
rejected. -/
theorem stiffness_mask_spec (cfg : Config) (grads : ℕ → List ℚ) (dir : List ℚ)
    (prev : SimulationState) (i : ℕ) (hi : i < NUM_CLIENTS)
    (hmask : cfg.useStiffnessMask = true)
    (hg : (grads i).length = VECTOR_DIM) :
    ((runRound cfg grads dir prev).clients.getD i default).stiffnessViolationScore =
        (∑ j ∈ Finset.range VECTOR_DIM,
          (runRound cfg grads dir prev).globalFIM.getD j 0 * |(grads i).getD j 0|) /
          (VECTOR_DIM : ℚ)
    ∧ (detectedByA cfg (runRound cfg grads dir prev).globalFIM (grads i) = true ↔
        ((runRound cfg grads dir prev).clients.getD i default).stiffnessViolationScore >
          (if cfg.useMomentumFIM then 12 else 15) * (1 + cfg.nonIIDLevel))
    ∧ (detectedByA cfg (runRound cfg grads dir prev).globalFIM (grads i) = true →
        ((runRound cfg grads dir prev).clients.getD i default).isAccepted = false) := by
  rw [runRound_clients_getD cfg grads dir prev i hi, runRound_globalFIM]
  rw [processClient_score, processClient_isAccepted, mkClient_gradient]
  refine ⟨?_, ?_, ?_⟩
  · rw [stiffnessScoreOf, if_pos (by rw [hmask]),
      weightedAbsSum_eq (updateFIM cfg.useMomentumFIM prev.globalFIM) (grads i) 0, hg]
    simp
  · rw [detectedByA, hmask]
    simp [stiffnessThreshold]
  · intro h
    rw [detect_eq_detectAB_of_mask cfg _ dir _ hmask,
      detectAB_of_detectedByA cfg _ dir _ h]
    rfl

/-- Witness for C1 at a concrete input. -/
theorem stiffness_mask_spec_witness :
    cfgAll.useStiffnessMask = true ∧
    ((runRound cfgAll gradsZero dirZero initialState).clients.getD 0 default).stiffnessViolationScore =
      (∑ j ∈ Finset.range VECTOR_DIM,
        (runRound cfgAll gradsZero dirZero initialState).globalFIM.getD j 0 *
          |(gradsZero 0).getD j 0|) / (VECTOR_DIM : ℚ) :=
  ⟨rfl, (stiffness_mask_spec cfgAll gradsZero dirZero initialState 0 (by decide) rfl
    (by decide)).1⟩

/-- C2: with the clustering toggle enabled, the Mechanism-B distance is the
importance-weighted squared distance to the true direction (the weight is
the importance vector), a client not detected by Mechanism A is rejected
exactly when that distance exceeds 500 * (1 + nonIIDLevel), a client
detected by Mechanism A stays rejected, and Mechanism B does not run when
its toggle is off. -/
theorem layer_weighted_clustering_spec (cfg : Config) (grads : ℕ → List ℚ) (dir : List ℚ)
    (prev : SimulationState) (i : ℕ) (hi : i < NUM_CLIENTS)
    (hlwc : cfg.useLayerWeightedClustering = true) :
    clusterDist cfg (runRound cfg grads dir prev).globalFIM dir (grads i) =
        (∑ j ∈ Finset.range VECTOR_DIM,
          (runRound cfg grads dir prev).globalFIM.getD j 0 *
            (((grads i).getD j 0 - dir.getD j 0) * ((grads i).getD j 0 - dir.getD j 0)))
    ∧ (detectedByA cfg (runRound cfg grads dir prev).globalFIM (grads i) = false →
        (((runRound cfg grads dir prev).clients.getD i default).isAccepted = false ↔
          clusterDist cfg (runRound cfg grads dir prev).globalFIM dir (grads i) >
            500 * (1 + cfg.nonIIDLevel)))
    ∧ (detectedByA cfg (runRound cfg grads dir prev).globalFIM (grads i) = true →
        ((runRound cfg grads dir prev).clients.getD i default).isAccepted = false)
    ∧ (∀ cfg2 : Config, cfg2.useLayerWeightedClustering = false →
        ∀ fim2 dir2 g2 : List ℚ, detectAB cfg2 fim2 dir2 g2 = detectedByA cfg2 fim2 g2) := by
  rw [runRound_clients_getD cfg grads dir prev i hi, runRound_globalFIM]
  rw [processClient_isAccepted, mkClient_gradient]
  refine ⟨?_, ?_, ?_, ?_⟩
  · rw [clusterDist, sum_map_range_eq]
    exact Finset.sum_congr rfl (fun j _ => by rw [if_pos (by rw [hlwc])])
  · intro h
    rw [detect_eq_detectAB_of_lwc cfg _ dir _ hlwc, detectAB, h]
    simp [hlwc]
  · intro h
    rw [detect_eq_detectAB_of_lwc cfg _ dir _ hlwc,
      detectAB_of_detectedByA cfg _ dir _ h]
    rfl
  · intro cfg2 h2 fim2 dir2 g2
    simp [detectAB, h2]

/-- Witness for C2 at a concrete input. -/
theorem layer_weighted_clustering_spec_witness :
    cfgAll.useLayerWeightedClustering = true ∧
    clusterDist cfgAll (runRound cfgAll gradsZero dirZero initialState).globalFIM dirZero
        (gradsZero 0) =
      (∑ j ∈ Finset.range VECTOR_DIM,
        (runRound cfgAll gradsZero dirZero initialState).globalFIM.getD j 0 *
          (((gradsZero 0).getD j 0 - dirZero.getD j 0) *
            ((gradsZero 0).getD j 0 - dirZero.getD j 0))) :=
  ⟨rfl, (layer_weighted_clustering_spec cfgAll gradsZero dirZero initialState 0
    (by decide) rfl).1⟩

/-- C3: when momentum-FIM is enabled every importance coordinate is updated
by the EMA 0.9 * old + 0.1 * ideal with ideal 10.0 on the first five
coordinates and 1.0 elsewhere; when disabled the importance vector of the
next state is the previous one unchanged. -/
theorem momentum_fim_update (cfg : Config) (grads : ℕ → List ℚ) (dir : List ℚ)
    (prev : SimulationState) :
    (cfg.useMomentumFIM = true → ∀ j, j < prev.globalFIM.length →
        (runRound cfg grads dir prev).globalFIM.getD j 0 =
          0.9 * prev.globalFIM.getD j 0 + 0.1 * (if j < 5 then (10.0 : ℚ) else 1.0))
    ∧ (cfg.useMomentumFIM = false →
        (runRound cfg grads dir prev).globalFIM = prev.globalFIM) := by
  constructor
  · intro hm j hj
    rw [runRound_globalFIM]
    rw [show updateFIM cfg.useMomentumFIM prev.globalFIM = emaUpdateFrom 0 prev.globalFIM by
      simp [updateFIM, hm]]
    rw [getD_emaUpdateFrom 0 prev.globalFIM j hj]
    simp [idealFIM]
  · intro hm
    rw [runRound_globalFIM]
    simp [updateFIM, hm]

/-- Witness for C3 at a concrete input. -/
theorem momentum_fim_update_witness :
    cfgAll.useMomentumFIM = true ∧ (0 : ℕ) < initialState.globalFIM.length ∧
    (runRound cfgAll gradsZero dirZero initialState).globalFIM.getD 0 0 =
      0.9 * initialState.globalFIM.getD 0 0 + 0.1 * (if (0 : ℕ) < 5 then (10.0 : ℚ) else 1.0) :=
  ⟨rfl, by decide,
    (momentum_fim_update cfgAll gradsZero dirZero initialState).1 rfl 0 (by decide)⟩

/-- C4: every reachable state keeps every importance coordinate in [0, 10],
whatever the per-round toggles and gradient draws were. -/
theorem importance_vector_bounds (dir : List ℚ) (s : SimulationState)
    (h : Reachable dir s) : ∀ x ∈ s.globalFIM, 0 ≤ x ∧ x ≤ 10 := by
  induction h with
  | init =>
      intro x hx
      simp only [initialState] at hx
      have hx1 := List.eq_of_mem_replicate hx
      subst hx1
      norm_num
  | step cfg grads s hs ih =>
      intro x hx
      rw [runRound_globalFIM] at hx
      cases hm : cfg.useMomentumFIM with
      | false =>
          rw [updateFIM, hm] at hx
          exact ih x (by simpa using hx)
      | true =>
          rw [updateFIM, hm] at hx
          simp only [if_pos] at hx
          exact mem_emaUpdateFrom_bounds 0 s.globalFIM ih x (by simpa using hx)

/-- Witness for C4: the initial state is reachable and the theorem applies
to the coordinate value 1 found in its importance vector. -/
theorem importance_vector_bounds_witness :
    (1 : ℚ) ∈ initialState.globalFIM ∧ 0 ≤ (1 : ℚ) ∧ (1 : ℚ) ≤ 10 :=
  ⟨by decide, importance_vector_bounds dirZero initialState Reachable.init 1 (by decide)⟩

/-- The JS denominator acceptedCount || 1 equals max acceptedCount 1. -/
theorem attackImpactOf_eq_max (cs : List Client) :
    attackImpactOf cs =
      (maliciousAcceptedOf cs : ℚ) / ((max (acceptedCountOf cs) 1 : ℕ) : ℚ) := by
  unfold attackImpactOf
  rcases Nat.eq_zero_or_pos (acceptedCountOf cs) with h | h
  · rw [h]
    norm_num
  · rw [if_neg (Nat.pos_iff_ne_zero.mp h), Nat.max_eq_left h]

/-- C5: the aggregator computes attackImpact = maliciousAccepted divided by
max acceptedCount 1, new accuracy = 0.8 previous + 0.2 (0.95 - impact 0.5),
and new ASR = 0.8 previous + 0.2 target with target 0.9 exactly when the
impact exceeds 0.1, else 0. -/
theorem aggregator_metrics_update (cfg : Config) (grads : ℕ → List ℚ) (dir : List ℚ)
    (prev : SimulationState) :
    (runRound cfg grads dir prev).globalAccuracy =
        0.8 * prev.globalAccuracy + 0.2 * (0.95 -
          ((maliciousAcceptedOf (runRound cfg grads dir prev).clients : ℚ) /
            ((max (acceptedCountOf (runRound cfg grads dir prev).clients) 1 : ℕ) : ℚ)) * 0.5)
    ∧ (runRound cfg grads dir prev).backdoorSuccessRate =
        0.8 * prev.backdoorSuccessRate + 0.2 *
          (if ((maliciousAcceptedOf (runRound cfg grads dir prev).clients : ℚ) /
              ((max (acceptedCountOf (runRound cfg grads dir prev).clients) 1 : ℕ) : ℚ)) > 0.1
            then (0.9 : ℚ) else 0) := by
  constructor
  · rw [runRound_globalAccuracy, attackImpactOf_eq_max]
    ring
  · rw [runRound_backdoorSuccessRate, attackImpactOf_eq_max]
    norm_num
    ring

/-- A client index is typed malicious exactly when it is below n * frac. -/
theorem clientTypeOf_malicious_iff (n : ℕ) (frac : ℚ) (i : ℕ) :
    clientTypeOf n frac i = ClientType.malicious ↔ (i : ℚ) < (n : ℚ) * frac := by
  unfold clientTypeOf
  split
  · next hlt => simpa using hlt
  · next hlt => simp [hlt]

/-- Counting the indices below a rational bound inside List.range. -/
theorem countP_range_lt (q : ℚ) : ∀ m : ℕ,
    ((List.range m).countP fun i : ℕ => decide ((i : ℚ) < q)) = min m (Int.toNat ⌈q⌉)
  | 0 => by simp
  | m + 1 => by
      rw [List.range_succ, List.countP_append, countP_range_lt q m]
      by_cases h : (m : ℚ) < q
      · have h2 : (m : ℤ) < ⌈q⌉ := Int.lt_ceil.mpr (by exact_mod_cast h)
        simp only [List.countP_cons, List.countP_nil, decide_eq_true_eq, h, if_true]
        omega
      · have h2 : ⌈q⌉ ≤ (m : ℤ) := Int.ceil_le.mpr (by exact_mod_cast le_of_not_lt h)
        simp only [List.countP_cons, List.countP_nil, decide_eq_true_eq, h, if_false]
        omega

/-- Counting the malicious client indices in a round of n clients. -/
theorem countP_malicious_range (n : ℕ) (frac : ℚ) :
    ((List.range n).countP fun i : ℕ => decide (clientTypeOf n frac i = ClientType.malicious))
      = min n (Int.toNat ⌈(n : ℚ) * frac⌉) := by
  have hfun : (fun i : ℕ => decide (clientTypeOf n frac i = ClientType.malicious))
      = fun i : ℕ => decide ((i : ℚ) < (n : ℚ) * frac) :=
    funext fun i => decide_eq_decide.mpr (clientTypeOf_malicious_iff n frac i)
  rw [hfun, countP_range_lt]

/-- C6 counterexample: with the source's assignment rule i < N * ratio
instantiated at N = 20, ratio = 0.21, the list of 20 clients contains 5
malicious indices (0..4), not floor (20 * 0.21) = floor 4.2 = 4 as the
claim states. -/
theorem malicious_count_not_floor :
    ((List.range 20).countP fun i : ℕ =>
        decide (clientTypeOf 20 (21/100) i = ClientType.malicious)) = 5
    ∧ ⌊(20 : ℚ) * (21/100)⌋ = 4 := by
  constructor
  · rw [countP_malicious_range]
    have hceil : ⌈((20 : ℕ) : ℚ) * (21/100)⌉ = 5 := by
      rw [Int.ceil_eq_iff]
      norm_num
    rw [hceil]
    rfl
  · norm_num

/-- C6 amended: a client index is malicious exactly when it is below
N * ratio; malicious indices are downward closed (always the lowest ones);
their number is min N (ceil (N * ratio)) - which agrees with
floor (N * ratio) exactly when N * ratio is an integer, as it is for the
source's constants N = 20, ratio = 0.2 - and every actual round of the
engine contains exactly 4 malicious clients. -/
theorem malicious_assignment_amended (n : ℕ) (frac : ℚ) :
    (∀ i : ℕ, clientTypeOf n frac i = ClientType.malicious ↔ (i : ℚ) < (n : ℚ) * frac)
    ∧ ((List.range n).countP fun i => decide (clientTypeOf n frac i = ClientType.malicious))
        = min n (Int.toNat ⌈(n : ℚ) * frac⌉)
    ∧ (∀ i j : ℕ, j ≤ i → clientTypeOf n frac i = ClientType.malicious →
        clientTypeOf n frac j = ClientType.malicious)
    ∧ (∀ (cfg : Config) (grads : ℕ → List ℚ) (dir : List ℚ) (prev : SimulationState),
        ((runRound cfg grads dir prev).clients.countP
          fun c => decide (c.type = ClientType.malicious)) = 4) := by
  refine ⟨clientTypeOf_malicious_iff n frac, countP_malicious_range n frac, ?_, ?_⟩
  · intro i j hji hi
    rw [clientTypeOf_malicious_iff] at hi ⊢
    have hcast : (j : ℚ) ≤ (i : ℚ) := by exact_mod_cast hji
    linarith
  · intro cfg grads dir prev
    rw [runRound_clients, List.map_map, List.countP_map]
    have hcomp : ((fun c => decide (c.type = ClientType.malicious)) ∘
        (processClient cfg (updateFIM cfg.useMomentumFIM prev.globalFIM) dir ∘ mkClient grads))
        = fun i : ℕ => decide (clientTypeOf NUM_CLIENTS maliciousFraction i
            = ClientType.malicious) := by
      funext i
      rfl
    rw [hcomp, countP_malicious_range]
    have hceil : ⌈(NUM_CLIENTS : ℚ) * maliciousFraction⌉ = 4 := by
      rw [Int.ceil_eq_iff]
      norm_num [NUM_CLIENTS, maliciousFraction]
    rw [hceil]
    rfl

/-- C7: with both detection toggles off, a client of the round is rejected
exactly when its gradient magnitude exceeds 25; when either toggle is on
the fallback stage is not applied (detection reduces to Mechanisms A and
B alone). -/
theorem fallback_magnitude_check (cfg : Config) (grads : ℕ → List ℚ) (dir : List ℚ)
    (prev : SimulationState) (i : ℕ) (hi : i < NUM_CLIENTS)
    (hA : cfg.useStiffnessMask = false) (hB : cfg.useLayerWeightedClustering = false) :
    (((runRound cfg grads dir prev).clients.getD i default).isAccepted = false ↔
        mag (grads i) > 25)
    ∧ (∀ (cfg2 : Config) (fim2 dir2 g2 : List ℚ),
        (cfg2.useStiffnessMask = true ∨ cfg2.useLayerWeightedClustering = true) →
        detect cfg2 fim2 dir2 g2 = detectAB cfg2 fim2 dir2 g2) := by
  constructor
  · rw [runRound_clients_getD cfg grads dir prev i hi, processClient_isAccepted,
      mkClient_gradient, mag_gt_25_iff]
    by_cases hm : magSq (grads i) > 25 * 25
    · simp [detect, detectAB, detectedByA, hA, hB, hm]
    · simp [detect, detectAB, detectedByA, hA, hB, hm]
  · intro cfg2 fim2 dir2 g2 h
    rcases h with h | h
    · exact detect_eq_detectAB_of_mask cfg2 fim2 dir2 g2 h
    · exact detect_eq_detectAB_of_lwc cfg2 fim2 dir2 g2 h

/-- Witness for C7 at a concrete input. -/
theorem fallback_magnitude_check_witness :
    cfgPlain.useStiffnessMask = false ∧ cfgPlain.useLayerWeightedClustering = false ∧
    (((runRound cfgPlain gradsTen dirZero initialState).clients.getD 0 default).isAccepted = false
      ↔ mag (gradsTen 0) > 25) :=
  ⟨rfl, rfl, (fallback_magnitude_check cfgPlain gradsTen dirZero initialState 0 (by decide)
    rfl rfl).1⟩

/-- History invariant: after r rounds the history holds min r 50 entries
whose round fields are the consecutive rounds ending at the current one. -/
theorem history_invariant (dir : List ℚ) (s : SimulationState) (h : Reachable dir s) :
    s.history.length = min s.round 50
    ∧ s.history.map HistoryEntry.round
        = List.range' (s.round + 1 - min s.round 50) (min s.round 50) := by
  induction h with
  | init => simp [initialState]
  | step cfg grads s hs ih =>
      obtain ⟨ih1, ih2⟩ := ih
      rw [runRound_history, runRound_round]
      constructor
      · simp only [sliceLast, List.length_drop, List.length_append, List.length_map,
          List.length_cons, List.length_nil]
        omega
      · simp only [sliceLast, List.map_drop, List.map_append, List.map_cons, List.map_nil,
          List.length_append, List.length_cons, List.length_nil, Nat.zero_add, ih2, ih1]
        rcases Nat.lt_or_ge s.round 50 with hr | hr
        · have hm1 : min s.round 50 = s.round := by omega
          have hm2 : min (s.round + 1) 50 = s.round + 1 := by omega
          rw [hm1, hm2]
          rw [show s.round + 1 - 50 = 0 by omega, List.drop_zero]
          rw [show s.round + 1 - s.round = 1 by omega,
            show s.round + 1 + 1 - (s.round + 1) = 1 by omega,
            List.range'_concat, show 1 + 1 * s.round = s.round + 1 by omega]
        · have hm1 : min s.round 50 = 50 := by omega
          have hm2 : min (s.round + 1) 50 = 50 := by omega
          rw [hm1, hm2]
          rw [show 50 + 1 - 50 = 1 by omega]
          rw [show List.range' (s.round + 1 - 50) 50
              = (s.round + 1 - 50) :: List.range' (s.round + 1 - 50 + 1) 49 from
            List.range'_succ _ _ _]
          rw [List.drop_append_of_le_length (by simp)]
          simp only [List.drop_succ_cons, List.drop_zero]
          rw [show List.range' (s.round + 1 + 1 - 50) 50
              = List.range' (s.round + 1 + 1 - 50) 49 ++ [s.round + 1 + 1 - 50 + 1 * 49] from
            List.range'_concat _ _]
          rw [show s.round + 1 + 1 - 50 = s.round + 1 - 50 + 1 by omega,
            show s.round + 1 - 50 + 1 + 1 * 49 = s.round + 1 by omega]

/-- C8: the history never exceeds 50 entries; it lists consecutive round
numbers ending at the current round; and after more than 50 rounds it has
exactly 50 entries holding the most recent 50 rounds in strictly
increasing order (the oldest entry dropped on each overflow). -/
theorem history_window (dir : List ℚ) (s : SimulationState) (h : Reachable dir s) :
    s.history.length ≤ 50
    ∧ s.history.map HistoryEntry.round
        = List.range' (s.round + 1 - min s.round 50) (min s.round 50)
    ∧ (50 < s.round → s.history.length = 50
        ∧ s.history.map HistoryEntry.round = List.range' (s.round - 49) 50) := by
  obtain ⟨h1, h2⟩ := history_invariant dir s h
  refine ⟨by omega, h2, fun hr => ⟨by omega, ?_⟩⟩
  rw [h2]
  have hm : min s.round 50 = 50 := by omega
  rw [hm, show s.round + 1 - 50 = s.round - 49 by omega]

/-- Iterated round transitions with a fixed configuration, for witnesses. -/
def iterRounds : ℕ → SimulationState → SimulationState
  | 0, s => s
  | k + 1, s => runRound cfgAll gradsZero dirZero (iterRounds k s)

theorem reachable_iterRounds (k : ℕ) : Reachable dirZero (iterRounds k initialState) := by
  induction k with
  | zero => exact Reachable.init
  | succ k ih => exact Reachable.step cfgAll gradsZero _ ih

theorem iterRounds_round (k : ℕ) (s : SimulationState) :
    (iterRounds k s).round = s.round + k := by
  induction k with
  | zero => rfl
  | succ k ih =>
      show (runRound cfgAll gradsZero dirZero (iterRounds k s)).round = s.round + (k + 1)
      rw [runRound_round, ih]
      omega

/-- Witness for C8: after 51 rounds the history has exactly 50 entries. -/
theorem history_window_witness :
    50 < (iterRounds 51 initialState).round
    ∧ (iterRounds 51 initialState).history.length = 50 := by
  have hr : 50 < (iterRounds 51 initialState).round := by
    rw [iterRounds_round 51 initialState]
    norm_num [initialState]
  exact ⟨hr, ((history_window dirZero (iterRounds 51 initialState)
    (reachable_iterRounds 51)).2.2 hr).1⟩

/-- C9: the round transition is a deterministic function of the previous
state, the configuration and the values drawn from the random source; two
runs whose gradient draws agree on the round's client indices produce
identical next states. -/
theorem round_transition_deterministic (cfg : Config) (g1 g2 : ℕ → List ℚ) (dir : List ℚ)
    (s : SimulationState) (h : ∀ i, i < NUM_CLIENTS → g1 i = g2 i) :
    runRound cfg g1 dir s = runRound cfg g2 dir s := by
  have hmap : (List.range NUM_CLIENTS).map (mkClient g1)
      = (List.range NUM_CLIENTS).map (mkClient g2) :=
    List.map_congr_left fun i hi => by
      unfold mkClient
      rw [h i (List.mem_range.mp hi)]
  unfold runRound
  rw [hmap]

/-- Gradient oracle agreeing with gradsZero on the round's client indices
but differing beyond them. -/
def gradsZeroAlt : ℕ → List ℚ := fun i => if i < NUM_CLIENTS then gradsZero i else [1]

/-- Witness for C9: equal draws on the used indices give an identical next
state even though the two oracles differ elsewhere. -/
theorem round_transition_deterministic_witness :
    runRound cfgAll gradsZero dirZero initialState
      = runRound cfgAll gradsZeroAlt dirZero initialState :=
  round_transition_deterministic cfgAll gradsZero gradsZeroAlt dirZero initialState
    (fun i hi => by simp [gradsZeroAlt, hi])

/-- Among the processed clients the accepted malicious ones are no more
numerous than the accepted ones. -/
theorem maliciousAcceptedOf_le (cs : List Client) :
    maliciousAcceptedOf cs ≤ acceptedCountOf cs :=
  List.countP_mono_left fun c _ hc => by
    simp only [Bool.and_eq_true] at hc
    exact hc.1

theorem attackImpactOf_nonneg (cs : List Client) : 0 ≤ attackImpactOf cs := by
  unfold attackImpactOf
  apply div_nonneg (Nat.cast_nonneg _)
  split
  · norm_num
  · exact Nat.cast_nonneg _

theorem attackImpactOf_le_one (cs : List Client) : attackImpactOf cs ≤ 1 := by
  unfold attackImpactOf
  rcases Nat.eq_zero_or_pos (acceptedCountOf cs) with h | h
  · have hm : maliciousAcceptedOf cs = 0 := by
      have := maliciousAcceptedOf_le cs
      omega
    rw [h, hm]
    norm_num
  · rw [if_neg (Nat.pos_iff_ne_zero.mp h), div_le_one (by exact_mod_cast h)]
    exact_mod_cast maliciousAcceptedOf_le cs

/-- C10: every reachable state keeps the accuracy inside [0.1, 0.95) and
the backdoor success rate inside [0, 0.9); both are strictly tighter than
[0, 1], and the ASR never reaches 0.9. -/
theorem metric_ranges (dir : List ℚ) (s : SimulationState) (h : Reachable dir s) :
    (0.1 ≤ s.globalAccuracy ∧ s.globalAccuracy < 0.95)
    ∧ (0 ≤ s.backdoorSuccessRate ∧ s.backdoorSuccessRate < 0.9) := by
  induction h with
  | init => norm_num [initialState]
  | step cfg grads s hs ih =>
      obtain ⟨⟨ha1, ha2⟩, hb1, hb2⟩ := ih
      have h0 := attackImpactOf_nonneg (runRound cfg grads dir s).clients
      have h1 := attackImpactOf_le_one (runRound cfg grads dir s).clients
      refine ⟨⟨?_, ?_⟩, ?_, ?_⟩
      · rw [runRound_globalAccuracy]
        linarith
      · rw [runRound_globalAccuracy]
        linarith
      · rw [runRound_backdoorSuccessRate]
        split <;> linarith
      · rw [runRound_backdoorSuccessRate]
        split <;> linarith

/-- Witness for C10 at the (reachable) initial state. -/
theorem metric_ranges_witness :
    (0.1 ≤ initialState.globalAccuracy ∧ initialState.globalAccuracy < 0.95)
    ∧ (0 ≤ initialState.backdoorSuccessRate ∧ initialState.backdoorSuccessRate < 0.9) :=
  metric_ranges dirZero initialState Reachable.init

end FedSim
